import Mathlib

/-!
Verification of the cisa core: an Independent Subspace Analysis (ISA) model
whose subspace densities are Gaussian Scale Mixtures (GSM).

The embedding follows the C++ sources:
  - `code/isa/include/isa.h`: the Parameters configuration record and the
    inline ISA accessors (numVisibles, numHiddens, complete, numSubspaces,
    basis, setBasis);
  - `code/isa/src/distribution.cpp`: Distribution::evaluate;
  - `code/isa/src/gsminterface.cpp`: the binding layer delegating to the GSM
    class.
The GSM class body and the ISA method bodies (gsm.cpp / isa.cpp) are not part
of the sources at hand; those operations are modelled from the specification
and are marked `Modelled from the spec:` in their doc comments.

Doubles are modelled as real numbers (exact real arithmetic); matrices are
modelled as index functions or as lists of rows, whichever fits the operation.
-/

namespace Cisa

/-- A Gaussian Scale Mixture over a `dim`-dimensional subspace with
`numScales` scales: per-scale variances and mixture weights.
(The GSM class body is not among the sources; its state is taken from the
spec: "per-scale (variance, weight) pairs".) -/
structure GSM where
  dim : ℕ
  numScales : ℕ
  variances : Fin numScales → ℝ
  weights : Fin numScales → ℝ

/-- The ISA model state, from the member list of `isa.h`:
`mNumVisibles`, `mNumHiddens`, `mBasis`, `mSubspaces`. -/
structure ISA where
  mNumVisibles : ℤ
  mNumHiddens : ℤ
  mBasis : List (List ℝ)
  mSubspaces : List GSM

/-- `ISA::numVisibles` (isa.h, lines 87-89): returns `mNumVisibles`. -/
def ISA.numVisibles (m : ISA) : ℤ :=
  m.mNumVisibles

/-- `ISA::numHiddens` (isa.h, lines 93-95): the source returns
`mNumVisibles`, not `mNumHiddens`. -/
def ISA.numHiddens (m : ISA) : ℤ :=
  m.mNumVisibles

/-- `ISA::complete` (isa.h, lines 99-101): `mNumVisibles == mNumHiddens`. -/
def ISA.complete (m : ISA) : Bool :=
  m.mNumVisibles == m.mNumHiddens

/-- `ISA::numSubspaces` (isa.h, lines 105-107): `mSubspaces.size()`. -/
def ISA.numSubspaces (m : ISA) : ℕ :=
  m.mSubspaces.length

/-- `ISA::basis` (isa.h, lines 111-113): returns `mBasis`. -/
def ISA.basis (m : ISA) : List (List ℝ) :=
  m.mBasis

/-- `ISA::setBasis` (isa.h, lines 117-119): `mBasis = basis;` with no shape
check; every other member is untouched. -/
def ISA.setBasis (m : ISA) (b : List (List ℝ)) : ISA :=
  { m with mBasis := b }

/-- The nested anonymous `SGD` struct of `Parameters` (isa.h, lines 19-26). -/
structure SGDParameters where
  maxIter : ℤ
  batchSize : ℤ
  stepWidth : ℚ
  momentum : ℚ
  shuffle : Bool
  pocket : Bool

/-- The nested anonymous `GSM` struct of `Parameters` (isa.h, lines 28-31). -/
structure GSMParameters where
  maxIter : ℤ
  tol : ℚ

/-- The `Parameters` configuration record (isa.h, lines 13-50). -/
structure Parameters where
  trainingMethod : String
  samplingMethod : String
  maxIter : ℤ
  adaptive : Bool
  SGD : SGDParameters
  GSM : GSMParameters

/-- The default constructor `Parameters::Parameters` (isa.h, lines 33-49). -/
def Parameters.default : Parameters where
  trainingMethod := "SGD"
  samplingMethod := "Gibbs"
  maxIter := 10
  adaptive := true
  SGD :=
    { maxIter := 1
      batchSize := 100
      stepWidth := 0.001
      momentum := 0.8
      shuffle := true
      pocket := true }
  GSM :=
    { maxIter := 100
      tol := 1e-8 }

/-- The abstract density capability (`distribution.h`): a model-specific
dimensionality and per-sample log-likelihood. -/
structure Distribution where
  dim : ℕ
  logLikelihood : List (List ℝ) → List ℝ

/-- The mean of a sequence of scalars, as Eigen's `.mean()`:
sum divided by the number of entries. -/
noncomputable def listMean (l : List ℝ) : ℝ :=
  l.sum / l.length

/-- `Distribution::evaluate` (distribution.cpp, lines 11-13):
`-logLikelihood(data).mean() / log(2.) / dim()`. -/
noncomputable def Distribution.evaluate (m : Distribution) (data : List (List ℝ)) : ℝ :=
  -(listMean (m.logLikelihood data)) / Real.log 2 / m.dim

/-- Modelled from the spec: the density of a zero-mean `d`-dimensional
isotropic Gaussian with per-dimension variance `v`, as a function of the
squared norm `s` of its argument: `(2*pi*v)^(-d/2) * exp(-s/(2v))`. -/
noncomputable def gauss (d : ℕ) (v s : ℝ) : ℝ :=
  (2 * Real.pi * v) ^ (-(d : ℝ) / 2) * Real.exp (-(s / (2 * v)))

/-- The squared Euclidean norm of column `j` of a data matrix with `d` rows
(columns are samples). -/
noncomputable def colNormSq (d : ℕ) (x : ℕ → ℕ → ℝ) (j : ℕ) : ℝ :=
  ∑ i ∈ Finset.range d, x i j ^ 2

/-- Modelled from the spec (gsm.cpp is not among the sources): the weighted
density `w_i * N(x_j; 0, v_i I)` of sample column `j` under scale `i`. -/
noncomputable def GSM.scaleLik (g : GSM) (x : ℕ → ℕ → ℝ) (j : ℕ) (i : Fin g.numScales) : ℝ :=
  g.weights i * gauss g.dim (g.variances i) (colNormSq g.dim x j)

/-- Modelled from the spec: the mixture (marginal) density of sample column
`j`, `sum_i w_i N_i(x_j)`. -/
noncomputable def GSM.marginal (g : GSM) (x : ℕ → ℕ → ℝ) (j : ℕ) : ℝ :=
  ∑ i, g.scaleLik x j i

/-- Modelled from the spec: `posterior(data)` — for sample `j` and scale `i`
the responsibility `w_i N_i(x_j) / sum_k w_k N_k(x_j)`; the log-sum-exp route
described in the spec computes exactly this normalized quantity. -/
noncomputable def GSM.posterior (g : GSM) (x : ℕ → ℕ → ℝ) (i : Fin g.numScales) (j : ℕ) : ℝ :=
  g.scaleLik x j i / g.marginal x j

/-- Modelled from the spec: `variance()`, the weighted average of the
per-scale variances (undefined — division by zero — when the total mixture
weight is zero). -/
noncomputable def GSM.variance (g : GSM) : ℝ :=
  (∑ i, g.weights i * g.variances i) / (∑ i, g.weights i)

/-- Modelled from the spec: `normalize()` rescales every per-scale variance
by the common factor `1 / variance()`; the weights are untouched. -/
noncomputable def GSM.normalize (g : GSM) : GSM :=
  { g with variances := fun i => g.variances i / g.variance }

/-- Modelled from the spec: one EM iteration of GSM `train` — the E-step
computes posterior responsibilities; the M-step sets each scale's weight to
its average responsibility over the `n` samples and its variance to the
responsibility-weighted second moment per dimension. -/
noncomputable def GSM.emStep (g : GSM) (n : ℕ) (x : ℕ → ℕ → ℝ) : GSM :=
  { g with
    weights := fun i => (∑ j ∈ Finset.range n, g.posterior x i j) / n
    variances := fun i =>
      (∑ j ∈ Finset.range n, g.posterior x i j * colNormSq g.dim x j) /
        (g.dim * ∑ j ∈ Finset.range n, g.posterior x i j) }

/-- Modelled from the spec: the total log-likelihood of the `n` sample
columns of `x` under the mixture. -/
noncomputable def GSM.logLik (g : GSM) (n : ℕ) (x : ℕ → ℕ → ℝ) : ℝ :=
  ∑ j ∈ Finset.range n, Real.log (g.marginal x j)

/-- Modelled from the spec: the parameter trajectory of EM training —
`emIter g n x k` is the GSM state after `k` EM iterations. -/
noncomputable def GSM.emIter (g : GSM) (n : ℕ) (x : ℕ → ℕ → ℝ) : ℕ → GSM
  | 0 => g
  | k + 1 => (g.emIter n x k).emStep n x

/-- Modelled from the spec: the iteration core of `train(data, maxIter, tol)`
— run EM steps until the log-likelihood improvement falls below `tol`
(convergence, boolean `true`) or the iteration budget is exhausted (boolean
`false`); non-attainment of `tol` is never an error. -/
noncomputable def GSM.trainAux (n : ℕ) (x : ℕ → ℕ → ℝ) (tol : ℝ) :
    ℕ → GSM → Bool × GSM
  | 0, g => (false, g)
  | fuel + 1, g =>
    let g' := g.emStep n x
    if g'.logLik n x - g.logLik n x < tol then (true, g')
    else GSM.trainAux n x tol fuel g'

/-- Modelled from the spec: `train(data, maxIter, tol)` of the GSM
(gsminterface.cpp line 126 delegates to it; its body is not among the
sources). -/
noncomputable def GSM.train (g : GSM) (n : ℕ) (x : ℕ → ℕ → ℝ) (maxIter : ℕ) (tol : ℝ) :
    Bool × GSM :=
  GSM.trainAux n x tol maxIter g

/-- Splitting a list of rows into consecutive blocks of the given heights
(the successive `middleRows` slices of a states matrix). -/
def sliceRows : List ℕ → List (List ℝ) → List (List (List ℝ))
  | [], _ => []
  | w :: ws, rows => rows.take w :: sliceRows ws (rows.drop w)

/-- The squared norm of column `j` of a block given as a list of rows. -/
noncomputable def colNormSqRows (B : List (List ℝ)) (j : ℕ) : ℝ :=
  (B.map fun r => r.getD j 0 ^ 2).sum

/-- Modelled from the spec: the scalar coefficient of the GSM energy
gradient at a sample with squared norm `s` — the energy
`E(x) = -log sum_i w_i N_i(x)` has gradient `x` scaled by
`(sum_i w_i N_i(x) / v_i) / (sum_i w_i N_i(x))`. -/
noncomputable def GSM.gradCoef (g : GSM) (s : ℝ) : ℝ :=
  (∑ i, g.weights i * gauss g.dim (g.variances i) s / g.variances i) /
    (∑ i, g.weights i * gauss g.dim (g.variances i) s)

/-- Modelled from the spec: `energyGradient(data)` of a GSM on a block of
rows — entrywise, each entry is scaled by the gradient coefficient of its
column. -/
noncomputable def GSM.energyGradient (g : GSM) (B : List (List ℝ)) : List (List ℝ) :=
  B.map fun r => r.mapIdx fun j a => a * g.gradCoef (colNormSqRows B j)

/-- Modelled from the spec: `priorEnergyGradient(states)` — slice the rows
of `states` into consecutive per-subspace blocks (block heights are the
subspace GSM dimensions) and concatenate each subspace GSM's
`energyGradient` of its own block, in subspace order. -/
noncomputable def ISA.priorEnergyGradient (m : ISA) (states : List (List ℝ)) :
    List (List ℝ) :=
  (List.zipWith GSM.energyGradient m.mSubspaces
      (sliceRows (m.mSubspaces.map GSM.dim) states)).flatten

/-- The spec's data-model invariants for a GSM: strictly positive mixture
weights summing to 1, and strictly positive per-scale variances. -/
def GSM.Regular (g : GSM) : Prop :=
  (∀ i, 0 < g.weights i) ∧ (∑ i, g.weights i) = 1 ∧ ∀ i, 0 < g.variances i

/-- A concrete one-dimensional, one-scale GSM (variance 2, weight 1), used
to instantiate universally quantified results. -/
noncomputable def gsmOne : GSM :=
  ⟨1, 1, fun _ => 2, fun _ => 1⟩

/-- A concrete ISA state holding the single subspace `gsmOne`. -/
noncomputable def isaOne : ISA :=
  ⟨1, 1, [[1]], [gsmOne]⟩

end Cisa

namespace Cisa

/-- C1: the claim says `numHiddens()` returns the stored hidden count
`mNumHiddens`; the source (isa.h line 94) returns `mNumVisibles`. On a model
with 2 visibles and 3 hiddens the accessor answers 2, not the stored 3, while
`complete()` does compare the stored counts. -/
theorem numHiddens_returns_mNumVisibles :
    ISA.numHiddens ⟨2, 3, [], []⟩ = 2 ∧ (⟨2, 3, [], []⟩ : ISA).mNumHiddens = 3 ∧
      ISA.numHiddens ⟨2, 3, [], []⟩ ≠ (⟨2, 3, [], []⟩ : ISA).mNumHiddens ∧
      ISA.complete ⟨2, 3, [], []⟩ = decide ((⟨2, 3, [], []⟩ : ISA).mNumVisibles =
        (⟨2, 3, [], []⟩ : ISA).mNumHiddens) := by
  refine ⟨rfl, rfl, by decide, rfl⟩

/-- C2: `complete()` returns true exactly when the stored visible count
equals the stored hidden count. -/
theorem complete_iff_numVisibles_eq_mNumHiddens (m : ISA) :
    m.complete = true ↔ m.mNumVisibles = m.mNumHiddens := by
  simp [ISA.complete]

/-- C3: `evaluate(data)` is exactly the negated mean of the very
`logLikelihood(data)` sequence, divided by the natural log of 2 and by the
model's dimensionality. -/
theorem evaluate_eq_neg_mean_logLikelihood (m : Distribution) (data : List (List ℝ)) :
    m.evaluate data =
      -((m.logLikelihood data).sum / ((m.logLikelihood data).length : ℝ)) /
        Real.log 2 / (m.dim : ℝ) := by
  rfl

/-- C4: the default-constructed `Parameters` record carries exactly the
documented defaults. -/
theorem parameters_default_values :
    Parameters.default.trainingMethod = "SGD" ∧
      Parameters.default.samplingMethod = "Gibbs" ∧
      Parameters.default.maxIter = 10 ∧
      Parameters.default.adaptive = true ∧
      Parameters.default.SGD.maxIter = 1 ∧
      Parameters.default.SGD.batchSize = 100 ∧
      Parameters.default.SGD.stepWidth = 0.001 ∧
      Parameters.default.SGD.momentum = 0.8 ∧
      Parameters.default.SGD.shuffle = true ∧
      Parameters.default.SGD.pocket = true ∧
      Parameters.default.GSM.maxIter = 100 ∧
      Parameters.default.GSM.tol = 1e-8 := by
  norm_num [Parameters.default]

/-- C10: `setBasis(M)` is total (no shape check can fail), a subsequent
`basis()` returns exactly `M`, and the visible count, hidden count and
subspace list are untouched. -/
theorem setBasis_replaces_basis_frame (m : ISA) (M : List (List ℝ)) :
    (m.setBasis M).basis = M ∧
      (m.setBasis M).mNumVisibles = m.mNumVisibles ∧
      (m.setBasis M).mNumHiddens = m.mNumHiddens ∧
      (m.setBasis M).mSubspaces = m.mSubspaces := by
  exact ⟨rfl, rfl, rfl, rfl⟩

theorem exists_pos_of_sum_pos {s : ℕ} (f : Fin s → ℝ) (h : 0 < ∑ i, f i) :
    ∃ i, 0 < f i := by
  by_contra hc
  push_neg at hc
  exact absurd (Finset.sum_nonpos fun i _ => hc i) (not_le.mpr h)

theorem gauss_pos (d : ℕ) {v : ℝ} (hv : 0 < v) (s : ℝ) : 0 < gauss d v s :=
  mul_pos (Real.rpow_pos_of_pos (by positivity) _) (Real.exp_pos _)

theorem weighted_sum_variances_pos (g : GSM) (hw : ∀ i, 0 ≤ g.weights i)
    (hs : 0 < ∑ i, g.weights i) (hv : ∀ i, 0 < g.variances i) :
    0 < ∑ i, g.weights i * g.variances i := by
  obtain ⟨i0, hi0⟩ := exists_pos_of_sum_pos _ hs
  exact Finset.sum_pos' (fun i _ => mul_nonneg (hw i) (hv i).le)
    ⟨i0, Finset.mem_univ _, mul_pos hi0 (hv i0)⟩

theorem variance_pos (g : GSM) (hw : ∀ i, 0 ≤ g.weights i)
    (hs : 0 < ∑ i, g.weights i) (hv : ∀ i, 0 < g.variances i) :
    0 < g.variance :=
  div_pos (weighted_sum_variances_pos g hw hs hv) hs

/-- C6: for a GSM with positive total mixture weight (and the data-model
invariants: non-negative weights, positive variances), `normalize()` makes
`variance()` exactly 1, keeps every pairwise variance ratio
(cross-multiplied form), and leaves the weights unchanged. -/
theorem normalize_variance_one (g : GSM) (hw : ∀ i, 0 ≤ g.weights i)
    (hs : 0 < ∑ i, g.weights i) (hv : ∀ i, 0 < g.variances i) :
    g.normalize.variance = 1 ∧
      (∀ i j, g.normalize.variances i * g.variances j =
        g.variances i * g.normalize.variances j) ∧
      g.normalize.weights = g.weights := by
  have hA : 0 < ∑ i, g.weights i * g.variances i :=
    weighted_sum_variances_pos g hw hs hv
  refine ⟨?_, ?_, rfl⟩
  · show (∑ i, g.weights i * (g.variances i / g.variance)) / (∑ i, g.weights i) = 1
    have hsum : (∑ i, g.weights i * (g.variances i / g.variance)) =
        (∑ i, g.weights i * g.variances i) / g.variance := by
      rw [Finset.sum_div]
      exact Finset.sum_congr rfl fun i _ => (mul_div_assoc _ _ _).symm
    rw [hsum, GSM.variance, div_div_eq_mul_div, div_div]
    exact div_self (mul_ne_zero hA.ne' hs.ne')
  · intro i j
    show g.variances i / g.variance * g.variances j =
      g.variances i * (g.variances j / g.variance)
    rw [div_mul_eq_mul_div, mul_div_assoc]

/-- Witness for C6 at the concrete GSM `gsmOne`. -/
theorem normalize_variance_one_witness :
    (∀ i, 0 ≤ gsmOne.weights i) ∧ (0 < ∑ i, gsmOne.weights i) ∧
      (∀ i, 0 < gsmOne.variances i) ∧ gsmOne.normalize.variance = 1 := by
  have hw : ∀ i, 0 ≤ gsmOne.weights i := fun _ => zero_le_one
  have hs : 0 < ∑ i, gsmOne.weights i := by simp [gsmOne]
  have hv : ∀ i, 0 < gsmOne.variances i := fun _ => two_pos
  exact ⟨hw, hs, hv, (normalize_variance_one gsmOne hw hs hv).1⟩

theorem marginal_pos (g : GSM) (x : ℕ → ℕ → ℝ) (hv : ∀ i, 0 < g.variances i)
    (hw : ∀ i, 0 ≤ g.weights i) (hs : 0 < ∑ i, g.weights i) (j : ℕ) :
    0 < g.marginal x j := by
  obtain ⟨i0, hi0⟩ := exists_pos_of_sum_pos _ hs
  refine Finset.sum_pos'
    (fun i _ => mul_nonneg (hw i) (gauss_pos _ (hv i) _).le)
    ⟨i0, Finset.mem_univ _, mul_pos hi0 (gauss_pos _ (hv i0) _)⟩

/-- C7: for a GSM satisfying the data-model invariants (positive variances,
non-negative weights, positive total weight), every sample's posterior
responsibilities are non-negative and sum to 1 across the scales. -/
theorem posterior_is_distribution (g : GSM) (x : ℕ → ℕ → ℝ)
    (hv : ∀ i, 0 < g.variances i) (hw : ∀ i, 0 ≤ g.weights i)
    (hs : 0 < ∑ i, g.weights i) (j : ℕ) :
    (∑ i, g.posterior x i j) = 1 ∧ ∀ i, 0 ≤ g.posterior x i j := by
  have hm : 0 < g.marginal x j := marginal_pos g x hv hw hs j
  constructor
  · show (∑ i, g.scaleLik x j i / g.marginal x j) = 1
    rw [← Finset.sum_div]
    exact div_self hm.ne'
  · intro i
    exact div_nonneg (mul_nonneg (hw i) (gauss_pos _ (hv i) _).le) hm.le

/-- Witness for C7 at the concrete GSM `gsmOne` and the zero data column. -/
theorem posterior_is_distribution_witness :
    (∀ i, 0 < gsmOne.variances i) ∧ (∀ i, 0 ≤ gsmOne.weights i) ∧
      (0 < ∑ i, gsmOne.weights i) ∧
      (∑ i, gsmOne.posterior (fun _ _ => 0) i 0) = 1 := by
  have hv : ∀ i, 0 < gsmOne.variances i := fun _ => two_pos
  have hw : ∀ i, 0 ≤ gsmOne.weights i := fun _ => zero_le_one
  have hs : 0 < ∑ i, gsmOne.weights i := by simp [gsmOne]
  exact ⟨hv, hw, hs, (posterior_is_distribution gsmOne (fun _ _ => 0) hv hw hs 0).1⟩

theorem sliceRows_join (gs : List GSM) (blocks : List (List (List ℝ)))
    (h : List.Forall₂ (fun (g : GSM) (b : List (List ℝ)) => b.length = g.dim)
      gs blocks) :
    sliceRows (gs.map GSM.dim) blocks.flatten = blocks := by
  induction h with
  | nil => rfl
  | cons hgb _ ih =>
    simp only [List.map_cons, List.flatten_cons, sliceRows]
    rw [← hgb, List.take_left, List.drop_left, ih]

/-- C5: on a states matrix formed by stacking per-subspace row blocks (each
block as tall as its subspace GSM's dimension), `priorEnergyGradient` is the
concatenation, in subspace order, of each subspace GSM's `energyGradient`
applied to its own block alone — no cross-subspace dependence. -/
theorem priorEnergyGradient_concat (m : ISA) (blocks : List (List (List ℝ)))
    (h : List.Forall₂ (fun (g : GSM) (b : List (List ℝ)) => b.length = g.dim)
      m.mSubspaces blocks) :
    m.priorEnergyGradient blocks.flatten =
      (List.zipWith GSM.energyGradient m.mSubspaces blocks).flatten := by
  unfold ISA.priorEnergyGradient
  rw [sliceRows_join m.mSubspaces blocks h]

/-- Witness for C5 at the concrete model `isaOne` and a single stacked
one-row block. -/
theorem priorEnergyGradient_concat_witness :
    List.Forall₂ (fun (g : GSM) (b : List (List ℝ)) => b.length = g.dim)
      isaOne.mSubspaces [[[0]]] ∧
    isaOne.priorEnergyGradient ([[[0]]] : List (List (List ℝ))).flatten =
      (List.zipWith GSM.energyGradient isaOne.mSubspaces [[[0]]]).flatten := by
  have h : List.Forall₂ (fun (g : GSM) (b : List (List ℝ)) => b.length = g.dim)
      isaOne.mSubspaces [[[0]]] := List.Forall₂.cons rfl List.Forall₂.nil
  exact ⟨h, priorEnergyGradient_concat isaOne [[[0]]] h⟩

theorem posterior_sum_one (g : GSM) (x : ℕ → ℕ → ℝ) (hv : ∀ i, 0 < g.variances i)
    (hw : ∀ i, 0 ≤ g.weights i) (hs : 0 < ∑ i, g.weights i) (j : ℕ) :
    ∑ i, g.posterior x i j = 1 := by
  have hm := marginal_pos g x hv hw hs j
  show (∑ i, g.scaleLik x j i / g.marginal x j) = 1
  rw [← Finset.sum_div]
  exact div_self hm.ne'

theorem scaleLik_pos (g : GSM) (x : ℕ → ℕ → ℝ) (hw : ∀ i, 0 < g.weights i)
    (hv : ∀ i, 0 < g.variances i) (i : Fin g.numScales) (j : ℕ) :
    0 < g.scaleLik x j i :=
  mul_pos (hw i) (gauss_pos _ (hv i) _)

theorem posterior_pos (g : GSM) (x : ℕ → ℕ → ℝ) (hw : ∀ i, 0 < g.weights i)
    (hv : ∀ i, 0 < g.variances i) (i : Fin g.numScales) (j : ℕ) :
    0 < g.posterior x i j := by
  have hs : 0 < ∑ k, g.weights k :=
    Finset.sum_pos (fun k _ => hw k) ⟨i, Finset.mem_univ i⟩
  exact div_pos (scaleLik_pos g x hw hv i j)
    (marginal_pos g x hv (fun k => (hw k).le) hs j)

theorem colNormSq_nonneg (d : ℕ) (x : ℕ → ℕ → ℝ) (j : ℕ) :
    0 ≤ colNormSq d x j :=
  Finset.sum_nonneg fun _ _ => sq_nonneg _

theorem csum_pos (g : GSM) (n : ℕ) (x : ℕ → ℕ → ℝ) (hw : ∀ i, 0 < g.weights i)
    (hv : ∀ i, 0 < g.variances i) (hn : 0 < n) (i : Fin g.numScales) :
    0 < ∑ j ∈ Finset.range n, g.posterior x i j :=
  Finset.sum_pos (fun j _ => posterior_pos g x hw hv i j)
    (Finset.nonempty_range_iff.mpr hn.ne')

theorem Tsum_pos (g : GSM) (n : ℕ) (x : ℕ → ℕ → ℝ) (hw : ∀ i, 0 < g.weights i)
    (hv : ∀ i, 0 < g.variances i)
    (hx : ∃ j ∈ Finset.range n, 0 < colNormSq g.dim x j) (i : Fin g.numScales) :
    0 < ∑ j ∈ Finset.range n, g.posterior x i j * colNormSq g.dim x j := by
  obtain ⟨j0, hj0, hs0⟩ := hx
  exact Finset.sum_pos'
    (fun j _ => mul_nonneg (posterior_pos g x hw hv i j).le (colNormSq_nonneg _ x j))
    ⟨j0, hj0, mul_pos (posterior_pos g x hw hv i j0) hs0⟩

theorem csum_total (g : GSM) (n : ℕ) (x : ℕ → ℕ → ℝ) (hw : ∀ i, 0 < g.weights i)
    (hw1 : ∑ i, g.weights i = 1) (hv : ∀ i, 0 < g.variances i) :
    ∑ i, (∑ j ∈ Finset.range n, g.posterior x i j) = (n : ℝ) := by
  rw [Finset.sum_comm]
  have h1 : ∀ j, ∑ i, g.posterior x i j = 1 :=
    posterior_sum_one g x hv (fun i => (hw i).le) (hw1 ▸ one_pos)
  simp only [h1]
  simp

/-- Jensen's inequality for the logarithm with strictly positive weights
summing to 1, derived from `log t ≤ t - 1`. -/
theorem sum_mul_log_le_log_sum {s : ℕ} (γ r : Fin s → ℝ) (hγ : ∀ i, 0 < γ i)
    (hγ1 : ∑ i, γ i = 1) (hr : ∀ i, 0 < r i) :
    ∑ i, γ i * Real.log (r i) ≤ Real.log (∑ i, γ i * r i) := by
  have hs0 : s ≠ 0 := by
    rintro rfl
    simp at hγ1
  have hne : Nonempty (Fin s) := ⟨⟨0, Nat.pos_of_ne_zero hs0⟩⟩
  have hS : 0 < ∑ i, γ i * r i :=
    Finset.sum_pos (fun i _ => mul_pos (hγ i) (hr i)) Finset.univ_nonempty
  have hstep : ∀ i ∈ Finset.univ, γ i * Real.log (r i) ≤
      γ i * (Real.log (∑ k, γ k * r k) + (r i / (∑ k, γ k * r k) - 1)) := by
    intro i _
    refine mul_le_mul_of_nonneg_left ?_ (hγ i).le
    have h1 : Real.log (r i / (∑ k, γ k * r k)) ≤ r i / (∑ k, γ k * r k) - 1 :=
      Real.log_le_sub_one_of_pos (div_pos (hr i) hS)
    rw [Real.log_div (hr i).ne' hS.ne'] at h1
    linarith
  have hsum := Finset.sum_le_sum hstep
  have expand : ∑ i, γ i * (Real.log (∑ k, γ k * r k) + (r i / (∑ k, γ k * r k) - 1)) =
      Real.log (∑ k, γ k * r k) := by
    have e : ∀ i, γ i * (Real.log (∑ k, γ k * r k) + (r i / (∑ k, γ k * r k) - 1)) =
        γ i * Real.log (∑ k, γ k * r k) + γ i * r i / (∑ k, γ k * r k) - γ i := by
      intro i
      ring
    simp only [e]
    rw [Finset.sum_sub_distrib, Finset.sum_add_distrib, ← Finset.sum_mul,
      ← Finset.sum_div, hγ1, one_mul, div_self hS.ne']
    ring
  calc ∑ i, γ i * Real.log (r i) ≤
      ∑ i, γ i * (Real.log (∑ k, γ k * r k) + (r i / (∑ k, γ k * r k) - 1)) := hsum
    _ = Real.log (∑ k, γ k * r k) := expand

/-- The Gibbs inequality in the form needed for the EM weight update: for
positive coefficients `cw` with total `N`, the average responsibilities
`cw i / N` maximize `sum_i cw i * log (q i)` over probability vectors `q`. -/
theorem sum_mul_log_avg_ge {s : ℕ} (cw w : Fin s → ℝ) (N : ℝ)
    (hc : ∀ i, 0 < cw i) (hw : ∀ i, 0 < w i) (hw1 : ∑ i, w i = 1)
    (hN : ∑ i, cw i = N) (hNpos : 0 < N) :
    ∑ i, cw i * Real.log (w i) ≤ ∑ i, cw i * Real.log (cw i / N) := by
  have hstep : ∀ i ∈ Finset.univ,
      cw i * Real.log (w i) - cw i * Real.log (cw i / N) ≤ w i * N - cw i := by
    intro i _
    have hpos : 0 < w i * N / cw i := div_pos (mul_pos (hw i) hNpos) (hc i)
    have h1 : Real.log (w i * N / cw i) ≤ w i * N / cw i - 1 :=
      Real.log_le_sub_one_of_pos hpos
    have h2 : Real.log (w i) - Real.log (cw i / N) = Real.log (w i * N / cw i) := by
      rw [Real.log_div (mul_pos (hw i) hNpos).ne' (hc i).ne',
        Real.log_div (hc i).ne' hNpos.ne', Real.log_mul (hw i).ne' hNpos.ne']
      ring
    have h3 : cw i * (Real.log (w i) - Real.log (cw i / N)) ≤
        cw i * (w i * N / cw i - 1) :=
      mul_le_mul_of_nonneg_left (by rw [h2]; exact h1) (hc i).le
    have h4 : cw i * (w i * N / cw i - 1) = w i * N - cw i := by
      rw [mul_sub, mul_one, mul_comm (cw i) (w i * N / cw i),
        div_mul_cancel₀ _ (hc i).ne']
    have h5 : cw i * (Real.log (w i) - Real.log (cw i / N)) =
        cw i * Real.log (w i) - cw i * Real.log (cw i / N) := by
      ring
    linarith
  have hsum := Finset.sum_le_sum hstep
  rw [Finset.sum_sub_distrib] at hsum
  have hzero : ∑ i, (w i * N - cw i) = 0 := by
    rw [Finset.sum_sub_distrib, ← Finset.sum_mul, hw1, hN, one_mul]
    ring
  linarith

/-- The M-step variance update maximizes the expected complete-data
log-likelihood in the variance: for `v' = T/(d*c)`, the function
`v ↦ -(d/2) log(2 pi v) * c - T/(2v)` is at most its value at `v'`. -/
theorem var_step_opt (d : ℕ) {c T v : ℝ} (hd : 0 < d) (hc : 0 < c)
    (hT : 0 < T) (hv : 0 < v) :
    -((d : ℝ) / 2) * Real.log (2 * Real.pi * v) * c - T / (2 * v) ≤
      -((d : ℝ) / 2) * Real.log (2 * Real.pi * (T / ((d : ℝ) * c))) * c -
        T / (2 * (T / ((d : ℝ) * c))) := by
  have hdR : (0 : ℝ) < (d : ℝ) := by exact_mod_cast hd
  have hdc : 0 < (d : ℝ) * c := mul_pos hdR hc
  set v' := T / ((d : ℝ) * c) with hvdef
  have hv' : 0 < v' := div_pos hT hdc
  have hTeq : T = (d : ℝ) * c * v' := by
    rw [hvdef, mul_comm ((d : ℝ) * c) _, div_mul_cancel₀ _ hdc.ne']
  have h1 : Real.log (v' / v) ≤ v' / v - 1 :=
    Real.log_le_sub_one_of_pos (div_pos hv' hv)
  have h2 : Real.log (v' / v) = Real.log v' - Real.log v :=
    Real.log_div hv'.ne' hv.ne'
  have h3 : Real.log (2 * Real.pi * v) = Real.log (2 * Real.pi) + Real.log v :=
    Real.log_mul (by positivity) hv.ne'
  have h4 : Real.log (2 * Real.pi * v') = Real.log (2 * Real.pi) + Real.log v' :=
    Real.log_mul (by positivity) hv'.ne'
  rw [hTeq]
  have k3 : (d : ℝ) * c * v' / (2 * v') = (d : ℝ) * c / 2 := by
    rw [mul_div_assoc, mul_comm 2 v', ← div_div, div_self hv'.ne', mul_one_div]
  rw [h3, h4, k3]
  have k1 : (d : ℝ) * c * (1 - v' / v) ≤
      (d : ℝ) * c * (Real.log v - Real.log v') :=
    mul_le_mul_of_nonneg_left (by linarith) hdc.le
  have k5 : (d : ℝ) * c * v' / (2 * v) = (d : ℝ) * c * (v' / v) / 2 := by
    ring
  linarith

/-- The responsibility-weighted sum of log Gaussian densities in closed
form: the coefficient of `log(2 pi u)` is the responsibility total, the
coefficient of `1/(2u)` the responsibility-weighted second moment. -/
theorem sum_posterior_log_gauss (g : GSM) (n : ℕ) (x : ℕ → ℕ → ℝ)
    (i : Fin g.numScales) {u : ℝ} (hu : 0 < u) :
    ∑ j ∈ Finset.range n,
        g.posterior x i j * Real.log (gauss g.dim u (colNormSq g.dim x j)) =
      -((g.dim : ℝ) / 2) * Real.log (2 * Real.pi * u) *
          (∑ j ∈ Finset.range n, g.posterior x i j) -
        (∑ j ∈ Finset.range n, g.posterior x i j * colNormSq g.dim x j) / (2 * u) := by
  have hlg : ∀ s : ℝ, Real.log (gauss g.dim u s) =
      -((g.dim : ℝ) / 2) * Real.log (2 * Real.pi * u) - s / (2 * u) := by
    intro s
    unfold gauss
    rw [Real.log_mul (Real.rpow_pos_of_pos (by positivity) _).ne' (Real.exp_pos _).ne',
      Real.log_rpow (by positivity), Real.log_exp]
    ring
  simp only [hlg]
  have e : ∀ j, g.posterior x i j *
      (-((g.dim : ℝ) / 2) * Real.log (2 * Real.pi * u) - colNormSq g.dim x j / (2 * u)) =
      -((g.dim : ℝ) / 2) * Real.log (2 * Real.pi * u) * g.posterior x i j -
        g.posterior x i j * colNormSq g.dim x j / (2 * u) := by
    intro j
    ring
  simp only [e]
  rw [Finset.sum_sub_distrib, ← Finset.mul_sum, ← Finset.sum_div]

theorem emStep_regular (g : GSM) (n : ℕ) (x : ℕ → ℕ → ℝ) (hreg : g.Regular)
    (hd : 0 < g.dim) (hn : 0 < n)
    (hx : ∃ j ∈ Finset.range n, 0 < colNormSq g.dim x j) :
    (g.emStep n x).Regular := by
  obtain ⟨hw, hw1, hv⟩ := hreg
  have hnR : (0 : ℝ) < (n : ℝ) := by exact_mod_cast hn
  have hdR : (0 : ℝ) < (g.dim : ℝ) := by exact_mod_cast hd
  refine ⟨fun i => div_pos (csum_pos g n x hw hv hn i) hnR, ?_,
    fun i => div_pos (Tsum_pos g n x hw hv hx i)
      (mul_pos hdR (csum_pos g n x hw hv hn i))⟩
  show (∑ i, (∑ j ∈ Finset.range n, g.posterior x i j) / (n : ℝ)) = 1
  rw [← Finset.sum_div, csum_total g n x hw hw1 hv]
  exact div_self hnR.ne'

/-- One EM iteration never decreases the total log-likelihood: the classical
EM monotonicity argument (Jensen for the E-step bound, Gibbs for the weight
update, and the closed-form variance optimum for the variance update). -/
theorem logLik_emStep_mono (g : GSM) (n : ℕ) (x : ℕ → ℕ → ℝ) (hreg : g.Regular)
    (hd : 0 < g.dim) (hn : 0 < n)
    (hx : ∃ j ∈ Finset.range n, 0 < colNormSq g.dim x j) :
    g.logLik n x ≤ (g.emStep n x).logLik n x := by
  obtain ⟨hw, hw1, hv⟩ := hreg
  have hwnn : ∀ i, 0 ≤ g.weights i := fun i => (hw i).le
  have hws : 0 < ∑ i, g.weights i := hw1 ▸ one_pos
  have hnR : (0 : ℝ) < (n : ℝ) := by exact_mod_cast hn
  have hdR : (0 : ℝ) < (g.dim : ℝ) := by exact_mod_cast hd
  have hp : ∀ j, 0 < g.marginal x j := fun j => marginal_pos g x hv hwnn hws j
  have ha : ∀ i j, 0 < g.scaleLik x j i := fun i j => scaleLik_pos g x hw hv i j
  have hpost : ∀ i j, 0 < g.posterior x i j := fun i j => posterior_pos g x hw hv i j
  have hpost1 : ∀ j, ∑ i, g.posterior x i j = 1 :=
    posterior_sum_one g x hv hwnn hws
  have hc : ∀ i, 0 < ∑ j ∈ Finset.range n, g.posterior x i j :=
    csum_pos g n x hw hv hn
  have hT : ∀ i, 0 < ∑ j ∈ Finset.range n, g.posterior x i j * colNormSq g.dim x j :=
    Tsum_pos g n x hw hv hx
  have hw' : ∀ i, 0 < (g.emStep n x).weights i := fun i => div_pos (hc i) hnR
  have hv' : ∀ i, 0 < (g.emStep n x).variances i := fun i =>
    div_pos (hT i) (mul_pos hdR (hc i))
  have ha' : ∀ i j, 0 < (g.emStep n x).scaleLik x j i := fun i j =>
    mul_pos (hw' i) (gauss_pos _ (hv' i) _)
  have stepA : ∀ j ∈ Finset.range n,
      Real.log (g.marginal x j) +
        (∑ i, g.posterior x i j *
          (Real.log ((g.emStep n x).scaleLik x j i) - Real.log (g.scaleLik x j i))) ≤
        Real.log ((g.emStep n x).marginal x j) := by
    intro j _
    have jensen := sum_mul_log_le_log_sum (fun i => g.posterior x i j)
      (fun i => (g.emStep n x).scaleLik x j i / g.posterior x i j)
      (fun i => hpost i j) (hpost1 j)
      (fun i => div_pos (ha' i j) (hpost i j))
    have e1 : (∑ i, g.posterior x i j *
        ((g.emStep n x).scaleLik x j i / g.posterior x i j)) =
        (g.emStep n x).marginal x j := by
      unfold GSM.marginal
      refine Finset.sum_congr rfl fun i _ => ?_
      rw [mul_comm, div_mul_cancel₀ _ (hpost i j).ne']
    have e2 : ∀ i, Real.log ((g.emStep n x).scaleLik x j i / g.posterior x i j) =
        (Real.log ((g.emStep n x).scaleLik x j i) - Real.log (g.scaleLik x j i)) +
          Real.log (g.marginal x j) := by
      intro i
      rw [Real.log_div (ha' i j).ne' (hpost i j).ne']
      have hpγ : Real.log (g.posterior x i j) =
          Real.log (g.scaleLik x j i) - Real.log (g.marginal x j) := by
        unfold GSM.posterior
        exact Real.log_div (ha i j).ne' (hp j).ne'
      rw [hpγ]
      ring
    rw [e1] at jensen
    simp only [e2] at jensen
    have e3 : (∑ i, g.posterior x i j *
        ((Real.log ((g.emStep n x).scaleLik x j i) - Real.log (g.scaleLik x j i)) +
          Real.log (g.marginal x j))) =
        (∑ i, g.posterior x i j *
          (Real.log ((g.emStep n x).scaleLik x j i) - Real.log (g.scaleLik x j i))) +
          Real.log (g.marginal x j) := by
      simp only [mul_add]
      rw [Finset.sum_add_distrib, ← Finset.sum_mul, hpost1 j, one_mul]
    rw [e3] at jensen
    linarith
  have hA := Finset.sum_le_sum stepA
  rw [Finset.sum_add_distrib] at hA
  have hΔ : 0 ≤ ∑ j ∈ Finset.range n, ∑ i, g.posterior x i j *
      (Real.log ((g.emStep n x).scaleLik x j i) - Real.log (g.scaleLik x j i)) := by
    rw [Finset.sum_comm]
    have split : ∀ (i : Fin g.numScales) (j : ℕ), g.posterior x i j *
        (Real.log ((g.emStep n x).scaleLik x j i) - Real.log (g.scaleLik x j i)) =
        g.posterior x i j *
            (Real.log ((g.emStep n x).weights i) - Real.log (g.weights i)) +
          (g.posterior x i j *
              Real.log (gauss g.dim ((g.emStep n x).variances i) (colNormSq g.dim x j)) -
            g.posterior x i j *
              Real.log (gauss g.dim (g.variances i) (colNormSq g.dim x j))) := by
      intro i j
      have l1 : Real.log ((g.emStep n x).scaleLik x j i) =
          Real.log ((g.emStep n x).weights i) +
            Real.log (gauss g.dim ((g.emStep n x).variances i) (colNormSq g.dim x j)) :=
        Real.log_mul (hw' i).ne' (gauss_pos _ (hv' i) _).ne'
      have l2 : Real.log (g.scaleLik x j i) =
          Real.log (g.weights i) +
            Real.log (gauss g.dim (g.variances i) (colNormSq g.dim x j)) :=
        Real.log_mul (hw i).ne' (gauss_pos _ (hv i) _).ne'
      rw [l1, l2]
      ring
    simp only [split]
    simp only [Finset.sum_add_distrib]
    refine add_nonneg ?_ ?_
    · have e : ∀ i : Fin g.numScales, (∑ j ∈ Finset.range n, g.posterior x i j *
          (Real.log ((g.emStep n x).weights i) - Real.log (g.weights i))) =
          (∑ j ∈ Finset.range n, g.posterior x i j) *
            (Real.log ((g.emStep n x).weights i) - Real.log (g.weights i)) := by
        intro i
        rw [Finset.sum_mul]
      simp only [e]
      have gibbs := sum_mul_log_avg_ge (fun i => ∑ j ∈ Finset.range n, g.posterior x i j)
        g.weights (n : ℝ) hc hw hw1 (csum_total g n x hw hw1 hv) hnR
      have hweq : ∀ i : Fin g.numScales, (g.emStep n x).weights i =
          (∑ j ∈ Finset.range n, g.posterior x i j) / (n : ℝ) := fun i => rfl
      simp only [hweq]
      simp only [mul_sub]
      rw [Finset.sum_sub_distrib]
      linarith
    · refine Finset.sum_nonneg fun i _ => ?_
      rw [Finset.sum_sub_distrib]
      rw [sum_posterior_log_gauss g n x i (hv' i), sum_posterior_log_gauss g n x i (hv i)]
      have hveq : (g.emStep n x).variances i =
          (∑ j ∈ Finset.range n, g.posterior x i j * colNormSq g.dim x j) /
            ((g.dim : ℝ) * ∑ j ∈ Finset.range n, g.posterior x i j) := rfl
      rw [hveq]
      have key := var_step_opt g.dim hd (hc i) (hT i) (hv i)
      linarith
  unfold GSM.logLik
  linarith

theorem emIter_dim (g : GSM) (n : ℕ) (x : ℕ → ℕ → ℝ) (k : ℕ) :
    (g.emIter n x k).dim = g.dim := by
  induction k with
  | zero => rfl
  | succ k ih => exact ih

theorem emIter_succ_left (g : GSM) (n : ℕ) (x : ℕ → ℕ → ℝ) (k : ℕ) :
    g.emIter n x (k + 1) = (g.emStep n x).emIter n x k := by
  induction k with
  | zero => rfl
  | succ k ih =>
    show (g.emIter n x (k + 1)).emStep n x = ((g.emStep n x).emIter n x k).emStep n x
    rw [ih]

theorem emIter_regular (g : GSM) (n : ℕ) (x : ℕ → ℕ → ℝ) (hreg : g.Regular)
    (hd : 0 < g.dim) (hn : 0 < n)
    (hx : ∃ j ∈ Finset.range n, 0 < colNormSq g.dim x j) (k : ℕ) :
    (g.emIter n x k).Regular := by
  induction k with
  | zero => exact hreg
  | succ k ih =>
    have hdk : 0 < (g.emIter n x k).dim := by
      rw [emIter_dim]
      exact hd
    have hxk : ∃ j ∈ Finset.range n, 0 < colNormSq (g.emIter n x k).dim x j := by
      rw [emIter_dim]
      exact hx
    exact emStep_regular _ n x ih hdk hn hxk

theorem trainAux_visits (n : ℕ) (x : ℕ → ℕ → ℝ) (tol : ℝ) :
    ∀ fuel g, ∃ k ≤ fuel, (GSM.trainAux n x tol fuel g).2 = g.emIter n x k := by
  intro fuel
  induction fuel with
  | zero =>
    intro g
    exact ⟨0, Nat.le_refl 0, rfl⟩
  | succ m ih =>
    intro g
    by_cases hcond : (g.emStep n x).logLik n x - g.logLik n x < tol
    · refine ⟨1, Nat.succ_le_succ (Nat.zero_le m), ?_⟩
      show (GSM.trainAux n x tol (m + 1) g).2 = g.emIter n x 1
      simp only [GSM.trainAux]
      rw [if_pos hcond]
      rfl
    · obtain ⟨k, hk, he⟩ := ih (g.emStep n x)
      refine ⟨k + 1, Nat.succ_le_succ hk, ?_⟩
      show (GSM.trainAux n x tol (m + 1) g).2 = g.emIter n x (k + 1)
      simp only [GSM.trainAux]
      rw [if_neg hcond, emIter_succ_left]
      exact he

/-- C8: GSM training is monotone in log-likelihood — every EM iterate keeps
or improves the total log-likelihood of the training data, and the model
`train(data, maxIter, tol)` returns is one of the first `maxIter` EM
iterates, so every iteration the training loop performs (up to convergence
or `maxIter`) is covered by the monotonicity statement. Hypotheses are the
spec's data-model invariants plus non-degenerate data (at least one sample,
at least one nonzero sample). -/
theorem train_logLik_monotone (g : GSM) (n : ℕ) (x : ℕ → ℕ → ℝ)
    (hreg : g.Regular) (hd : 0 < g.dim) (hn : 0 < n)
    (hx : ∃ j ∈ Finset.range n, 0 < colNormSq g.dim x j) :
    (∀ k, (g.emIter n x k).logLik n x ≤ (g.emIter n x (k + 1)).logLik n x) ∧
      ∀ maxIter tol, ∃ k ≤ maxIter, (g.train n x maxIter tol).2 = g.emIter n x k := by
  constructor
  · intro k
    have hregk := emIter_regular g n x hreg hd hn hx k
    have hdk : 0 < (g.emIter n x k).dim := by
      rw [emIter_dim]
      exact hd
    have hxk : ∃ j ∈ Finset.range n, 0 < colNormSq (g.emIter n x k).dim x j := by
      rw [emIter_dim]
      exact hx
    exact logLik_emStep_mono (g.emIter n x k) n x hregk hdk hn hxk
  · intro maxIter tol
    exact trainAux_visits n x tol maxIter g

/-- Witness for C8 at the concrete GSM `gsmOne` and a single all-ones data
column. -/
theorem train_logLik_monotone_witness :
    gsmOne.Regular ∧ 0 < gsmOne.dim ∧ (0 : ℕ) < 1 ∧
      (∃ j ∈ Finset.range 1, 0 < colNormSq gsmOne.dim (fun _ _ => 1) j) ∧
      gsmOne.logLik 1 (fun _ _ => 1) ≤
        (gsmOne.emIter 1 (fun _ _ => 1) 1).logLik 1 (fun _ _ => 1) := by
  have hreg : gsmOne.Regular :=
    ⟨fun _ => one_pos, by simp [gsmOne], fun _ => two_pos⟩
  have hd : 0 < gsmOne.dim := one_pos
  have hn : (0 : ℕ) < 1 := one_pos
  have hx : ∃ j ∈ Finset.range 1, 0 < colNormSq gsmOne.dim (fun _ _ => 1) j := by
    refine ⟨0, by simp, ?_⟩
    norm_num [colNormSq, gsmOne]
  exact ⟨hreg, hd, hn, hx,
    (train_logLik_monotone gsmOne 1 (fun _ _ => 1) hreg hd hn hx).1 0⟩

/-- C9: `train` with `maxIter = 0` performs zero EM updates (the returned
GSM is the untouched input), reports non-convergence through the boolean
`false`, and signals no error (the function is total; exhausting the
iteration budget is only ever reported through the boolean). -/
theorem train_zero_maxIter (g : GSM) (n : ℕ) (x : ℕ → ℕ → ℝ) (tol : ℝ) :
    g.train n x 0 tol = (false, g) :=
  rfl

end Cisa
